import Mathlib

/-!
Verification development for the `couchtypes` utility module
(src/couchtypes/utils.js).

The module contains four functions; the ones the claims concern are:

* `parseCSV` (utils.js lines 79-116): a CSV tokenizer driven by two
  JavaScript regexes,
    `fieldEndMarker  = /([,\015\012] *)/g` and
    `qFieldEndMarker = /("")*"([,\015\012] *)/g`,
  used with an explicit `lastIndex` cursor.
* `getErrors` (lines 56-65): wraps a call in try/catch and shapes the
  result with `arr.concat(fn.apply(this, args) || [])`.
* `getPropertyPath` (lines 34-42): recursive nested property lookup.

Strings are embedded as `List Char` (the cursor `startIndex` of the
source corresponds to passing the remaining suffix of the input), and
JavaScript values as the inductive type `JSVal` below.
-/

/-- Character class `[,\015\012]` of both field-end regexes: comma,
carriage return (\015 = CR) or line feed (\012 = LF). -/
def isDelim (c : Char) : Bool := c == ',' || c == '\r' || c == '\n'

/-- A character that is neither a field delimiter nor a quote: such
characters can only ever be part of a field's text. -/
def plainChar (c : Char) : Bool := !(isDelim c || c == '"')

/-- The ` *` part of both markers: greedily consume the space characters
(only U+0020, matching the literal space in the regex) that follow the
delimiter.  These spaces are part of the marker and are skipped. -/
def dropSpaces : List Char → List Char
  | ' ' :: rest => dropSpaces rest
  | l => l

/-- First match of `fieldEndMarker = /([,\015\012] *)/g` searched from the
cursor.  `some (f, d, r)` means: `f` is the text strictly before the first
delimiter (the field text, `csvString.substring(startIndex, endIndex)` of
line 94, since `endIndex` backs up over the whole match on line 93), `d`
is the delimiter character, and `r` is the input after the marker (the
regex engine's `lastIndex`, line 104).  `none` means the regex fails and
the loop breaks (lines 89-91). -/
def findFieldEnd : List Char → Option (List Char × Char × List Char)
  | [] => none
  | c :: rest =>
    if isDelim c then some ([], c, dropSpaces rest)
    else (findFieldEnd rest).map fun (f, d, r) => (c :: f, d, r)

/-- First match of `qFieldEndMarker = /("")*"([,\015\012] *)/g` searched
from the cursor.  A match of this regex starts at a position carrying an
odd-length run of `"` characters whose run is immediately followed by a
delimiter (the backtracking engine first tries the maximal number of
`("")` pairs and a match inside a quote run can only place the delimiter
right after the run).  Line 93 subtracts only the last group
`([,\015\012] *)`, so the field text `f` extends to the end of that quote
run; scanning char by char, a run of quotes whose end is followed by a
delimiter `d` ends the field there, and anything else is accumulated into
`f`.  `r` is again the input after the delimiter and its trailing
spaces. -/
def findQFieldEnd : List Char → Option (List Char × Char × List Char)
  | '"' :: c :: rest =>
    if isDelim c then some (['"'], c, dropSpaces rest)
    else (findQFieldEnd (c :: rest)).map fun (f, d, r) => ('"' :: f, d, r)
  | c :: rest => (findQFieldEnd rest).map fun (f, d, r) => (c :: f, d, r)
  | [] => none

/-- Line 86: the scan mode is chosen by looking at the character at the
cursor; `charAt` of an out-of-range index is the empty string in
JavaScript, which is not `"`, so an exhausted input scans in unquoted
mode. -/
def findMarker (l : List Char) : Option (List Char × Char × List Char) :=
  if l.head? = some '"' then findQFieldEnd l else findFieldEnd l

/-- Line 96, `match.substring(1, match.length - 1)`.  JavaScript's
`substring` swaps its arguments when `start > end`, so a one-character
`match` (possible for an input such as `",x`, where the opening quote is
itself the quote of the marker) is returned unchanged, and the empty
string maps to itself. -/
def stripOuter (f : List Char) : List Char :=
  if f.length ≤ 1 then f else (f.drop 1).dropLast

/-- Line 96, `.replace(/""/g, '"')`: left-to-right, non-overlapping
replacement of every adjacent pair of quote characters by a single
quote. -/
def unescapePairs : List Char → List Char
  | '"' :: '"' :: rest => '"' :: unescapePairs rest
  | c :: rest => c :: unescapePairs rest
  | [] => []

/-- Lines 95-97: a field whose raw text starts with `"` (exactly the
fields scanned in quoted mode) is stripped of its outer quotes and
un-escaped; any other field is kept verbatim. -/
def finishField (f : List Char) : List Char :=
  if f.head? = some '"' then unescapePairs (stripOuter f) else f

/-- The whitespace class of JavaScript `String.prototype.trim` (line 107):
the ASCII whitespace characters, every Unicode space separator (Zs: NBSP,
OGHAM SPACE MARK U+1680, the U+2000-U+200A spaces, NARROW NO-BREAK SPACE
U+202F, MEDIUM MATHEMATICAL SPACE U+205F, IDEOGRAPHIC SPACE U+3000), the
LINE and PARAGRAPH SEPARATOR line terminators, and the BOM. -/
def isJSWhitespace (c : Char) : Bool :=
  c == ' ' || c == '\t' || c == '\n' || c == '\r' || c == '\x0b' || c == '\x0c' ||
  c == '\u00A0' || c == '\u1680' || (0x2000 ≤ c.val && c.val ≤ 0x200A) ||
  c == '\u2028' || c == '\u2029' || c == '\u202F' || c == '\u205F' ||
  c == '\u3000' || c == '\uFEFF'

/-- Line 107, `csvString.substring(startIndex).trim()`: drop whitespace
from both ends of the remaining text. -/
def jsTrim (l : List Char) : List Char :=
  ((l.dropWhile isJSWhitespace).reverse.dropWhile isJSWhitespace).reverse

/-- Lines 106-114, run once after the loop breaks: if any text remains it
is trimmed and, when non-empty, appended as a final field; a non-empty
current record is appended to the result.  (When the cursor is at the end
of the input, line 106's guard skips the trim; `jsTrim [] = []`, so the
guard needs no separate case here.) -/
def finishUp (l : List Char) (currentRecord : List (List Char))
    (records : List (List (List Char))) : List (List (List Char)) :=
  let remaining := jsTrim l
  let cur := if remaining.isEmpty then currentRecord else currentRecord ++ [remaining]
  if cur.isEmpty then records else records ++ [cur]

-- Unfolding equations for `findQFieldEnd` whose overlapping second arm
-- needs its side condition made explicit, and the cursor-advance bounds
-- required by the termination argument of `parseLoop` below.

theorem findFieldEnd_cons_delim (c : Char) (h : isDelim c) (rest : List Char) :
    findFieldEnd (c :: rest) = some ([], c, dropSpaces rest) := by
  simp [findFieldEnd, h]

theorem findFieldEnd_cons_nondelim (c : Char) (h : ¬ isDelim c = true) (rest : List Char) :
    findFieldEnd (c :: rest) = (findFieldEnd rest).map fun (f, d, r) => (c :: f, d, r) := by
  simp [findFieldEnd, h]

theorem findQFieldEnd_cons_of_ne (c : Char) (h : ¬ c = '"') (t : List Char) :
    findQFieldEnd (c :: t) = (findQFieldEnd t).map fun (f, d, r) => (c :: f, d, r) := by
  cases t with
  | nil => simp [findQFieldEnd, h]
  | cons c' rest => simp [findQFieldEnd, h]

theorem findQFieldEnd_quote_delim (c : Char) (h : isDelim c) (rest : List Char) :
    findQFieldEnd ('"' :: c :: rest) = some (['"'], c, dropSpaces rest) := by
  simp [findQFieldEnd, h]

theorem findQFieldEnd_quote_nondelim (c : Char) (h : ¬ isDelim c = true) (rest : List Char) :
    findQFieldEnd ('"' :: c :: rest) =
      (findQFieldEnd (c :: rest)).map fun (f, d, r) => ('"' :: f, d, r) := by
  simp [findQFieldEnd, h]

theorem dropSpaces_length_le : ∀ l : List Char, (dropSpaces l).length ≤ l.length := by
  intro l
  induction l with
  | nil => simp [dropSpaces]
  | cons c rest ih =>
    by_cases h : c = ' '
    · subst h
      simpa [dropSpaces] using Nat.le_succ_of_le ih
    · have heq : dropSpaces (c :: rest) = c :: rest := by
        rw [dropSpaces.eq_def]
        split
        · simp_all
        · rfl
      simp [heq]

theorem findFieldEnd_rest_length :
    ∀ (l f : List Char) (d : Char) (r : List Char),
      findFieldEnd l = some (f, d, r) → r.length < l.length := by
  intro l
  induction l with
  | nil => intro f d r h; simp [findFieldEnd] at h
  | cons c rest ih =>
    intro f d r h
    by_cases hc : isDelim c
    · rw [findFieldEnd_cons_delim c hc rest] at h
      simp only [Option.some.injEq, Prod.mk.injEq] at h
      obtain ⟨-, -, hr⟩ := h
      subst hr
      have := dropSpaces_length_le rest
      simp only [List.length_cons]
      omega
    · rw [findFieldEnd_cons_nondelim c hc rest] at h
      cases hrec : findFieldEnd rest with
      | none => rw [hrec] at h; simp at h
      | some trip =>
        obtain ⟨f', d', r'⟩ := trip
        rw [hrec] at h
        simp only [Option.map_some', Option.some.injEq, Prod.mk.injEq] at h
        obtain ⟨-, -, hr⟩ := h
        subst hr
        have := ih f' d' r' hrec
        simp only [List.length_cons]
        omega

theorem findQFieldEnd_rest_length :
    ∀ (l f : List Char) (d : Char) (r : List Char),
      findQFieldEnd l = some (f, d, r) → r.length < l.length := by
  intro l
  induction l with
  | nil => intro f d r h; simp [findQFieldEnd] at h
  | cons c rest ih =>
    intro f d r h
    by_cases hq : c = '"'
    · subst hq
      cases rest with
      | nil => simp [findQFieldEnd] at h
      | cons c' rest' =>
        by_cases hc : isDelim c'
        · rw [findQFieldEnd_quote_delim c' hc rest'] at h
          simp only [Option.some.injEq, Prod.mk.injEq] at h
          obtain ⟨-, -, hr⟩ := h
          subst hr
          have := dropSpaces_length_le rest'
          simp only [List.length_cons]
          omega
        · rw [findQFieldEnd_quote_nondelim c' hc rest'] at h
          cases hrec : findQFieldEnd (c' :: rest') with
          | none => rw [hrec] at h; simp at h
          | some trip =>
            obtain ⟨f', d', r'⟩ := trip
            rw [hrec] at h
            simp only [Option.map_some', Option.some.injEq, Prod.mk.injEq] at h
            obtain ⟨-, -, hr⟩ := h
            subst hr
            have := ih f' d' r' hrec
            simp only [List.length_cons] at *
            omega
    · rw [findQFieldEnd_cons_of_ne c hq rest] at h
      cases hrec : findQFieldEnd rest with
      | none => rw [hrec] at h; simp at h
      | some trip =>
        obtain ⟨f', d', r'⟩ := trip
        rw [hrec] at h
        simp only [Option.map_some', Option.some.injEq, Prod.mk.injEq] at h
        obtain ⟨-, -, hr⟩ := h
        subst hr
        have := ih f' d' r' hrec
        simp only [List.length_cons]
        omega

theorem findMarker_rest_length {l f : List Char} {d : Char} {r : List Char}
    (h : findMarker l = some (f, d, r)) : r.length < l.length := by
  unfold findMarker at h
  split at h
  · exact findQFieldEnd_rest_length l f d r h
  · exact findFieldEnd_rest_length l f d r h

/-- The do-while loop of lines 84-105.  The suffix `l` of the input at the
cursor, the current record and the result list are the loop state; each
iteration looks for the marker of the mode picked on line 86, breaks when
the regex fails (running lines 106-114 once, `finishUp`), and otherwise
pushes the finished field, pushes the current record when the marker
contains no comma (line 100: the marker contains a comma exactly when its
delimiter character is the comma, since the rest of a marker consists of
quotes and spaces), and resumes after the marker. -/
def parseLoop (l : List Char) (currentRecord : List (List Char))
    (records : List (List (List Char))) : List (List (List Char)) :=
  match h : findMarker l with
  | none => finishUp l currentRecord records
  | some (f, d, rest) =>
    if d == ',' then parseLoop rest (currentRecord ++ [finishField f]) records
    else parseLoop rest [] (records ++ [currentRecord ++ [finishField f]])
termination_by l.length
decreasing_by
  · exact findMarker_rest_length h
  · exact findMarker_rest_length h

/-- `parseCSV` on the character-list representation of the input. -/
def parseCSVl (l : List Char) : List (List (List Char)) :=
  parseLoop l [] []

/-- `exports.parseCSV` (lines 79-116): rows of fields, as strings. -/
def parseCSV (csvString : String) : List (List String) :=
  (parseCSVl csvString.data).map fun rec => rec.map String.mk

/-- The same loop with explicit fuel, each iteration consuming one unit:
used to express that the scan is bounded by the input length.  `none`
means the fuel ran out before the loop finished. -/
def parseLoopF : Nat → List Char → List (List Char) → List (List (List Char)) →
    Option (List (List (List Char)))
  | 0, _, _, _ => none
  | n + 1, l, currentRecord, records =>
    match findMarker l with
    | none => some (finishUp l currentRecord records)
    | some (f, d, rest) =>
      if d == ',' then parseLoopF n rest (currentRecord ++ [finishField f]) records
      else parseLoopF n rest [] (records ++ [currentRecord ++ [finishField f]])

/-- `parseCSV` computed with fuel `length + 1`: at most one loop iteration
per input character, plus the final iteration in which the marker search
fails and the loop exits. -/
def parseCSVOpt (csvString : String) : Option (List (List String)) :=
  (parseLoopF (csvString.data.length + 1) csvString.data [] []).map
    fun rows => rows.map fun rec => rec.map String.mk

/-- Joining the fields of one record with single commas, as in the
round-trip property. -/
def joinFields : List (List Char) → List Char
  | [] => []
  | [f] => f
  | f :: fs => f ++ ',' :: joinFields fs

/-- String-level record serialization: the fields joined with single
commas. -/
def joinComma (rec : List String) : String :=
  String.mk (joinFields (rec.map String.data))

/-! Model of the JavaScript values handled by `getPropertyPath` and
`getErrors`.  Numbers are embedded as integers (no claim involves
fractional values or NaN); objects are association lists with the keys
assumed distinct, mirroring plain JS object literals. -/

inductive JSVal where
  | undefined
  | null
  | bool (b : Bool)
  | num (n : Int)
  | str (s : String)
  | obj (fields : List (String × JSVal))
  | arr (elems : List JSVal)

/-- JavaScript truthiness test `!obj` (line 38): `undefined`, `null`,
`false`, `0` and the empty string are falsy; every object and array
(including `{}` and `[]`) is truthy. -/
def jsFalsy : JSVal → Bool
  | .undefined => true
  | .null => true
  | .bool b => !b
  | .num n => n == 0
  | .str s => s == ""
  | .obj _ => false
  | .arr _ => false

/-- Decimal canonical array-index test: JS treats a string key of an array
or string as an element index exactly when it is the canonical decimal
form of a number below the length. -/
def numericIndex (len : Nat) (key : String) : Option Nat :=
  (List.range len).find? fun i => toString i == key

/-- JavaScript property read `obj[key]` (line 41) on the values of this
model: a missing key reads as `undefined`; objects look up their own
properties; arrays and strings expose `length` and their canonically
indexed elements; reads on primitives yield `undefined`. -/
def jsIndex : JSVal → String → JSVal
  | .obj fields, key => (fields.lookup key).getD .undefined
  | .arr elems, key =>
    if key == "length" then .num elems.length
    else
      match numericIndex elems.length key with
      | some i => elems.getD i .undefined
      | none => .undefined
  | .str s, key =>
    if key == "length" then .num s.length
    else
      match numericIndex s.length key with
      | some i => .str (String.mk [s.data.getD i ' '])
      | none => .undefined
  | _, _ => .undefined

/-- The recursion of `exports.getPropertyPath` (lines 34-42) once the path
is known to be an array: an empty path or a falsy current value returns
the current value (line 38-40), otherwise descend into `obj[path[0]]`
with the rest of the path (line 41). -/
def getPropertyPathL : JSVal → List String → JSVal
  | obj, [] => obj
  | obj, key :: rest =>
    if jsFalsy obj then obj else getPropertyPathL (jsIndex obj key) rest

/-- `exports.getPropertyPath` (lines 34-42).  The JS function accepts
either a single key or an array of keys; lines 35-37 wrap a non-array
into a one-element array. -/
def getPropertyPath (obj : JSVal) (path : String ⊕ List String) : JSVal :=
  match path with
  | .inl key => getPropertyPathL obj [key]
  | .inr keys => getPropertyPathL obj keys

/-- `arr.concat(x)` for `arr = []` (line 59): a JS array argument is
spread one level, anything else becomes a single element. -/
def concatValue : JSVal → List JSVal
  | .arr elems => elems
  | v => [v]

/-- `exports.getErrors` (lines 56-65).  The wrapped function either
returns a value or throws one; a thrown value is caught and pushed
(lines 61-63), a returned value `v` is shaped by
`[].concat(v || [])` (line 59): falsy returns contribute nothing, array
returns are appended element-wise, other truthy returns become a single
element. -/
def getErrors (fn : List JSVal → Except JSVal JSVal) (args : List JSVal) : List JSVal :=
  match fn args with
  | .ok v => if jsFalsy v then [] else concatValue v
  | .error e => [e]

-- Unfolding lemmas for one iteration of the loop.

theorem parseLoop_none {l : List Char} {cur : List (List Char)}
    {recs : List (List (List Char))} (h : findMarker l = none) :
    parseLoop l cur recs = finishUp l cur recs := by
  conv_lhs => rw [parseLoop.eq_def]
  split
  · rfl
  · rename_i f d rest h'
    rw [h] at h'
    exact absurd h' (by simp)

theorem parseLoop_some {l f : List Char} {d : Char} {rest : List Char}
    {cur : List (List Char)} {recs : List (List (List Char))}
    (h : findMarker l = some (f, d, rest)) :
    parseLoop l cur recs =
      if d == ',' then parseLoop rest (cur ++ [finishField f]) recs
      else parseLoop rest [] (recs ++ [cur ++ [finishField f]]) := by
  conv_lhs => rw [parseLoop.eq_def]
  split
  · rename_i h'
    rw [h] at h'
    exact absurd h' (by simp)
  · rename_i f' d' rest' h'
    rw [h] at h'
    injection h' with h''
    cases h''
    rfl

-- Fuel `length + 1` always suffices, and the fueled loop then computes
-- exactly what the loop computes.

theorem parseLoopF_adequate :
    ∀ (n : Nat) (l : List Char) (cur : List (List Char))
      (recs : List (List (List Char))), l.length < n →
      parseLoopF n l cur recs = some (parseLoop l cur recs) := by
  intro n
  induction n with
  | zero => intro l cur recs h; omega
  | succ n ih =>
    intro l cur recs h
    cases hm : findMarker l with
    | none =>
      rw [parseLoop_none hm]
      simp [parseLoopF, hm]
    | some trip =>
      obtain ⟨f, d, rest⟩ := trip
      have hlt : rest.length < l.length := findMarker_rest_length hm
      rw [parseLoop_some hm]
      by_cases hd : (d == ',') = true
      · simp only [parseLoopF, hm, hd, if_true]
        exact ih rest (cur ++ [finishField f]) recs (by omega)
      · simp only [parseLoopF, hm, hd, if_false]
        exact ih rest [] (recs ++ [cur ++ [finishField f]]) (by omega)

theorem parseCSVOpt_eq_some (s : String) : parseCSVOpt s = some (parseCSV s) := by
  unfold parseCSVOpt parseCSV parseCSVl
  rw [parseLoopF_adequate (s.data.length + 1) s.data [] [] (by omega)]
  rfl

/-- Evaluation bridge: a value computed by the fueled parser is the value
of the parser. -/
theorem parseCSV_eval {s : String} {v : List (List String)}
    (h : parseCSVOpt s = some v) : parseCSV s = v := by
  have h' := parseCSVOpt_eq_some s
  rw [h] at h'
  exact (Option.some.injEq .. ▸ h').symm

-- Lemmas about the marker searches on structured inputs.

theorem dropSpaces_eq_self {l : List Char} (h : l.head? ≠ some ' ') :
    dropSpaces l = l := by
  cases l with
  | nil => rfl
  | cons c rest =>
    rw [dropSpaces.eq_def]
    split
    · simp_all
    · rfl

theorem dropSpaces_replicate (k : Nat) (l : List Char) :
    dropSpaces (List.replicate k ' ' ++ l) = dropSpaces l := by
  induction k with
  | zero => simp
  | succ k ih => simpa [List.replicate_succ, dropSpaces] using ih

/-- A delimiter-free prefix of the unquoted scan is accumulated into the
field. -/
theorem findFieldEnd_append {x : List Char} (hx : ∀ c ∈ x, isDelim c = false)
    (t : List Char) :
    findFieldEnd (x ++ t) = (findFieldEnd t).map fun (f, d, r) => (x ++ f, d, r) := by
  induction x with
  | nil =>
    cases hf : findFieldEnd t with
    | none => simp [hf]
    | some trip => obtain ⟨f, d, r⟩ := trip; simp [hf]
  | cons c x ih =>
    have hc : ¬ isDelim c = true := by simp [hx c (by simp)]
    have hx' : ∀ c' ∈ x, isDelim c' = false := fun c' hc' => hx c' (by simp [hc'])
    rw [List.cons_append, findFieldEnd_cons_nondelim c hc (x ++ t), ih hx']
    cases hf : findFieldEnd t with
    | none => simp
    | some trip => obtain ⟨f, d, r⟩ := trip; simp

/-- With no delimiter anywhere, the unquoted marker search fails. -/
theorem findFieldEnd_eq_none {l : List Char} (h : ∀ c ∈ l, isDelim c = false) :
    findFieldEnd l = none := by
  have := findFieldEnd_append h ([] : List Char)
  simpa using this

/-- A quote-free prefix of the quoted scan is accumulated into the field:
no match of the quoted marker can begin at a non-quote character. -/
theorem findQFieldEnd_append {x : List Char} (hx : ∀ c ∈ x, ¬ c = '"')
    (t : List Char) :
    findQFieldEnd (x ++ t) = (findQFieldEnd t).map fun (f, d, r) => (x ++ f, d, r) := by
  induction x with
  | nil =>
    cases hf : findQFieldEnd t with
    | none => simp [hf]
    | some trip => obtain ⟨f, d, r⟩ := trip; simp [hf]
  | cons c x ih =>
    have hc : ¬ c = '"' := hx c (by simp)
    have hx' : ∀ c' ∈ x, ¬ c' = '"' := fun c' hc' => hx c' (by simp [hc'])
    rw [List.cons_append, findQFieldEnd_cons_of_ne c hc (x ++ t), ih hx']
    cases hf : findQFieldEnd t with
    | none => simp
    | some trip => obtain ⟨f, d, r⟩ := trip; simp

-- Lemmas about un-escaping and field finishing.

theorem unescapePairs_nil : unescapePairs [] = [] := rfl

theorem unescapePairs_cons_of_ne (c : Char) (h : ¬ c = '"') (l : List Char) :
    unescapePairs (c :: l) = c :: unescapePairs l := by
  cases l with
  | nil => simp [unescapePairs]
  | cons c' rest => simp [unescapePairs, h]

theorem unescapePairs_pair (l : List Char) :
    unescapePairs ('"' :: '"' :: l) = '"' :: unescapePairs l := rfl

theorem unescapePairs_append_of_no_quote {x : List Char} (hx : ∀ c ∈ x, ¬ c = '"')
    (t : List Char) : unescapePairs (x ++ t) = x ++ unescapePairs t := by
  induction x with
  | nil => simp
  | cons c x ih =>
    have hc : ¬ c = '"' := hx c (by simp)
    have hx' : ∀ c' ∈ x, ¬ c' = '"' := fun c' hc' => hx c' (by simp [hc'])
    rw [List.cons_append, unescapePairs_cons_of_ne c hc (x ++ t), ih hx']
    rfl

theorem unescapePairs_eq_self {l : List Char} (h : ∀ c ∈ l, ¬ c = '"') :
    unescapePairs l = l := by
  have := unescapePairs_append_of_no_quote h ([] : List Char)
  simpa [unescapePairs_nil] using this

theorem finishField_plain {f : List Char} (h : f.head? ≠ some '"') :
    finishField f = f := by
  unfold finishField
  rw [if_neg h]

theorem stripOuter_wrap (m : List Char) : stripOuter ('"' :: m ++ ['"']) = m := by
  have hlen : ('"' :: m ++ ['"']).length = m.length + 2 := by simp
  unfold stripOuter
  rw [if_neg (by omega)]
  simp

/-- A field scanned in quoted mode, whose raw text is the interior wrapped
in one quote on each side, finishes to the un-escaped interior. -/
theorem finishField_wrap (m : List Char) :
    finishField ('"' :: m ++ ['"']) = unescapePairs m := by
  unfold finishField
  rw [if_pos (by simp), stripOuter_wrap]

-- Every record the parser emits contains at least one field.

theorem finishUp_rec_ne_nil {l : List Char} {cur : List (List Char)}
    {recs : List (List (List Char))} (hrecs : ∀ r ∈ recs, r ≠ []) :
    ∀ r ∈ finishUp l cur recs, r ≠ [] := by
  intro r hr
  simp only [finishUp] at hr
  by_cases hrem : (jsTrim l).isEmpty = true
  · rw [if_pos hrem] at hr
    by_cases hcur : cur.isEmpty = true
    · rw [if_pos hcur] at hr
      exact hrecs r hr
    · rw [if_neg hcur] at hr
      rcases List.mem_append.mp hr with h | h
      · exact hrecs r h
      · rw [List.mem_singleton] at h
        subst h
        intro hnil
        rw [hnil] at hcur
        exact hcur rfl
  · rw [if_neg hrem] at hr
    rw [if_neg (by simp)] at hr
    rcases List.mem_append.mp hr with h | h
    · exact hrecs r h
    · rw [List.mem_singleton] at h
      subst h
      simp

theorem parseLoopF_rec_ne_nil :
    ∀ (n : Nat) (l : List Char) (cur : List (List Char))
      (recs res : List (List (List Char))), (∀ r ∈ recs, r ≠ []) →
      parseLoopF n l cur recs = some res → ∀ r ∈ res, r ≠ [] := by
  intro n
  induction n with
  | zero => intro l cur recs res _ h; simp [parseLoopF] at h
  | succ n ih =>
    intro l cur recs res hrecs h
    cases hm : findMarker l with
    | none =>
      simp only [parseLoopF, hm, Option.some.injEq] at h
      subst h
      exact finishUp_rec_ne_nil hrecs
    | some trip =>
      obtain ⟨f, d, rest⟩ := trip
      simp only [parseLoopF, hm] at h
      by_cases hd : (d == ',') = true
      · rw [if_pos hd] at h
        exact ih rest (cur ++ [finishField f]) recs res hrecs h
      · rw [if_neg hd] at h
        refine ih rest [] (recs ++ [cur ++ [finishField f]]) res ?_ h
        intro r hr
        rcases List.mem_append.mp hr with hr | hr
        · exact hrecs r hr
        · simp only [List.mem_singleton] at hr
          subst hr
          simp

theorem mem_parseCSVl_ne_nil {l : List Char} {r : List (List Char)}
    (h : r ∈ parseCSVl l) : r ≠ [] := by
  have hf := parseLoopF_adequate (l.length + 1) l [] [] (by omega)
  exact parseLoopF_rec_ne_nil (l.length + 1) l [] [] (parseCSVl l)
    (by simp) hf r h

theorem mem_parseCSV_ne_nil {s : String} {r : List String}
    (h : r ∈ parseCSV s) : r ≠ [] := by
  unfold parseCSV at h
  rw [List.mem_map] at h
  obtain ⟨r₀, hr₀, hmap⟩ := h
  subst hmap
  have := mem_parseCSVl_ne_nil hr₀
  simpa [List.map_eq_nil_iff] using this

/-- Helper for the amended lookup claim: descending from a falsy value
returns that value unchanged, whatever the remaining path. -/
theorem getPropertyPathL_falsy (obj : JSVal) (h : jsFalsy obj = true) :
    ∀ keys : List String, getPropertyPathL obj keys = obj := by
  intro keys
  cases keys with
  | nil => rfl
  | cons key rest =>
    simp only [getPropertyPathL]
    rw [if_pos h]

/-- Claim C4: every record in the sequence returned by parseCSV contains
at least one field; an empty record is never emitted. -/
theorem claim_C4 (s : String) (r : List String) (h : r ∈ parseCSV s) : r ≠ [] :=
  mem_parseCSV_ne_nil h

/-- Witness for claim C4 at the concrete input "a". -/
theorem claim_C4_witness : (["a"] : List String) ≠ [] :=
  claim_C4 "a" ["a"]
    (by rw [parseCSV_eval (show parseCSVOpt "a" = some [["a"]] by decide)]; simp)

/-- Claim C5: parseCSV is total: for every string the parse (here run with
the explicit fuel `length + 1`, one unit per loop iteration) completes
with a sequence of records, and that sequence is the parser's result; no
failure outcome exists in the embedding, matching the source, whose
string and regex operations cannot throw. -/
theorem claim_C5 (s : String) : parseCSVOpt s = some (parseCSV s) :=
  parseCSVOpt_eq_some s

/-- Claim C6: termination of the scan.  Whenever either marker search
finds a marker, the remaining input is strictly shorter (the cursor
strictly increases); when no marker is found the loop exits at once (the
`none` branch of `parseLoop` recurses no further), so fuel `length + 1`
— at most one iteration per character plus the final failing search —
always suffices and reproduces the loop's value. -/
theorem claim_C6 :
    (∀ (l f : List Char) (d : Char) (r : List Char),
        findFieldEnd l = some (f, d, r) → r.length < l.length)
  ∧ (∀ (l f : List Char) (d : Char) (r : List Char),
        findQFieldEnd l = some (f, d, r) → r.length < l.length)
  ∧ (∀ (l : List Char) (cur : List (List Char)) (recs : List (List (List Char))),
        parseLoopF (l.length + 1) l cur recs = some (parseLoop l cur recs)) :=
  ⟨findFieldEnd_rest_length, findQFieldEnd_rest_length,
    fun l cur recs => parseLoopF_adequate (l.length + 1) l cur recs (by omega)⟩

/-- Witness for claim C6: concrete instances of the three conjuncts. -/
theorem claim_C6_witness :
    ([] : List Char).length < ([','] : List Char).length
  ∧ ([] : List Char).length < (['"', ','] : List Char).length
  ∧ parseLoopF ((['a'] : List Char).length + 1) ['a'] [] [] =
      some (parseLoop ['a'] [] []) :=
  ⟨claim_C6.1 [','] [] ',' [] (by decide),
   claim_C6.2.1 ['"', ','] ['"'] ',' [] (by decide),
   claim_C6.2.2 ['a'] [] []⟩

/-- Claim C8: getErrors never propagates a failure of the wrapped
function: a thrown value is returned as the single element of the result
array rather than crossing the boundary. -/
theorem claim_C8 (fn : List JSVal → Except JSVal JSVal) (args : List JSVal)
    (e : JSVal) (h : fn args = .error e) :
    getErrors fn args = [e] ∧ e ∈ getErrors fn args := by
  constructor <;> simp [getErrors, h]

/-- Witness for claim C8 with a function that always throws. -/
theorem claim_C8_witness :
    getErrors (fun _ => Except.error (JSVal.str "boom")) [] = [JSVal.str "boom"]
  ∧ JSVal.str "boom" ∈ getErrors (fun _ => Except.error (JSVal.str "boom")) [] :=
  claim_C8 (fun _ => Except.error (JSVal.str "boom")) [] (JSVal.str "boom") rfl

/-- Claim C10: when the wrapped function returns normally, a falsy return
yields the empty array, an array return is spread element-wise (one
level), and any other truthy return becomes the single element of the
result. -/
theorem claim_C10 (fn : List JSVal → Except JSVal JSVal) (args : List JSVal)
    (v : JSVal) (h : fn args = .ok v) :
    (jsFalsy v = true → getErrors fn args = [])
  ∧ (∀ elems : List JSVal, v = .arr elems → getErrors fn args = elems)
  ∧ (jsFalsy v = false → (∀ elems : List JSVal, v ≠ .arr elems) →
      getErrors fn args = [v]) := by
  refine ⟨fun hf => ?_, fun elems he => ?_, fun hf hne => ?_⟩
  · simp only [getErrors, h]
    rw [if_pos hf]
  · subst he
    simp only [getErrors, h]
    rw [if_neg (by simp [jsFalsy])]
    rfl
  · simp only [getErrors, h]
    rw [if_neg (by simp [hf])]
    cases v with
    | arr elems => exact absurd rfl (hne elems)
    | undefined => rfl
    | null => rfl
    | bool b => rfl
    | num n => rfl
    | str s => rfl
    | obj fields => rfl

/-- Witness for claim C10: a falsy return, an array return and a plain
truthy return. -/
theorem claim_C10_witness :
    getErrors (fun _ => Except.ok (JSVal.num 0)) [] = []
  ∧ getErrors (fun _ => Except.ok (JSVal.arr [JSVal.str "e1"])) [] = [JSVal.str "e1"]
  ∧ getErrors (fun _ => Except.ok (JSVal.str "oops")) [] = [JSVal.str "oops"] :=
  ⟨(claim_C10 (fun _ => Except.ok (JSVal.num 0)) [] (JSVal.num 0) rfl).1 rfl,
   (claim_C10 (fun _ => Except.ok (JSVal.arr [JSVal.str "e1"])) []
      (JSVal.arr [JSVal.str "e1"]) rfl).2.1 [JSVal.str "e1"] rfl,
   (claim_C10 (fun _ => Except.ok (JSVal.str "oops")) [] (JSVal.str "oops")
      rfl).2.2 rfl (fun elems h => JSVal.noConfusion h)⟩

/-- Counterexample to claim C9: the key "b" is missing from the value
`false` reached while descending `{a: false}` along `["a","b"]`, yet the
function returns `false` itself, not an absent/undefined result: line 38
of the source returns any falsy intermediate value as is. -/
theorem claim_C9_counterexample :
    getPropertyPath (JSVal.obj [("a", JSVal.bool false)]) (Sum.inr ["a", "b"])
      = JSVal.bool false
  ∧ JSVal.bool false ≠ JSVal.undefined :=
  ⟨rfl, fun h => JSVal.noConfusion h⟩

/-- Claim C9 as amended: the lookup wraps a single key into a one-element
path and descends key-by-key; it stops and returns the current value as
soon as that value is falsy (so a missing key below a falsy value yields
that value, not undefined); a key missing from a truthy object yields
undefined, which then propagates; descent from a truthy value proceeds
into `obj[key]`. -/
theorem claim_C9_amended :
    (∀ (obj : JSVal) (key : String),
        getPropertyPath obj (Sum.inl key) = getPropertyPath obj (Sum.inr [key]))
  ∧ (∀ (obj : JSVal) (keys : List String), jsFalsy obj = true →
        getPropertyPathL obj keys = obj)
  ∧ (∀ (fields : List (String × JSVal)) (key : String) (keys : List String),
        fields.lookup key = none →
        getPropertyPathL (JSVal.obj fields) (key :: keys) = JSVal.undefined)
  ∧ (∀ (obj : JSVal) (key : String) (keys : List String), jsFalsy obj = false →
        getPropertyPathL obj (key :: keys) = getPropertyPathL (jsIndex obj key) keys) := by
  refine ⟨fun obj key => rfl, fun obj keys h => getPropertyPathL_falsy obj h keys,
    fun fields key keys h => ?_, fun obj key keys h => ?_⟩
  · simp only [getPropertyPathL]
    rw [if_neg (by simp [jsFalsy])]
    have hidx : jsIndex (JSVal.obj fields) key = JSVal.undefined := by
      simp only [jsIndex]
      rw [h]
      rfl
    rw [hidx]
    exact getPropertyPathL_falsy JSVal.undefined rfl keys
  · simp only [getPropertyPathL]
    rw [if_neg (by simp [h])]

/-- Witness for the amended claim C9: concrete instances of all four
conjuncts. -/
theorem claim_C9_amended_witness :
    getPropertyPath (JSVal.obj []) (Sum.inl "k")
      = getPropertyPath (JSVal.obj []) (Sum.inr ["k"])
  ∧ getPropertyPathL JSVal.null ["a"] = JSVal.null
  ∧ getPropertyPathL (JSVal.obj []) ["missing"] = JSVal.undefined
  ∧ getPropertyPathL (JSVal.obj [("a", JSVal.num 1)]) ["a"]
      = getPropertyPathL (jsIndex (JSVal.obj [("a", JSVal.num 1)]) "a") [] :=
  ⟨claim_C9_amended.1 (JSVal.obj []) "k",
   claim_C9_amended.2.1 JSVal.null ["a"] rfl,
   claim_C9_amended.2.2.1 [] "missing" [] rfl,
   claim_C9_amended.2.2.2 (JSVal.obj [("a", JSVal.num 1)]) "a" [] rfl⟩

-- Supporting lemmas for the round-trip claim.

theorem plainChar_not_delim {c : Char} (h : plainChar c = true) : isDelim c = false := by
  simp only [plainChar, Bool.not_eq_true'] at h
  exact (Bool.or_eq_false_iff.mp h).1

theorem plainChar_not_quote {c : Char} (h : plainChar c = true) : ¬ c = '"' := by
  simp only [plainChar, Bool.not_eq_true'] at h
  have := (Bool.or_eq_false_iff.mp h).2
  simpa using this

theorem getLast?_map_eq {α β : Type} (f : α → β) :
    ∀ l : List α, (l.map f).getLast? = (l.getLast?).map f := by
  intro l
  induction l with
  | nil => rfl
  | cons a l ih =>
    cases l with
    | nil => rfl
    | cons b t =>
      have h := ih
      simp only [List.map_cons] at h ⊢
      rw [List.getLast?_cons_cons, List.getLast?_cons_cons]
      exact h

/-- Head of a plain-field record that starts the text to be scanned: the
scan mode is unquoted. -/
theorem head?_not_quote_of_plain {f : List Char} (hf : ∀ c ∈ f, plainChar c = true) :
    f.head? ≠ some '"' := by
  cases f with
  | nil => simp
  | cons c rest =>
    simp only [List.head?_cons, ne_eq, Option.some.injEq]
    exact plainChar_not_quote (hf c (by simp))

/-- One marker step over a comma-joined plain field: the whole field is
scanned, the comma is its marker, and the scan resumes at the following
text (whose head is not a space). -/
theorem findMarker_plain_comma {f : List Char} (hf : ∀ c ∈ f, plainChar c = true)
    {t : List Char} (ht : t.head? ≠ some ' ') :
    findMarker (f ++ ',' :: t) = some (f, ',', t) := by
  have hdelim : ∀ c ∈ f, isDelim c = false := fun c hc => plainChar_not_delim (hf c hc)
  have hmode : (f ++ ',' :: t).head? ≠ some '"' := by
    cases f with
    | nil => simp
    | cons c rest =>
      simp only [List.cons_append, List.head?_cons, ne_eq, Option.some.injEq]
      exact plainChar_not_quote (hf c (by simp))
  unfold findMarker
  rw [if_neg hmode, findFieldEnd_append hdelim, findFieldEnd_cons_delim ',' (by decide) t,
    Option.map_some']
  simp [dropSpaces_eq_self ht]

/-- The loop on a comma-joined list of plain fields appends exactly those
fields to the current record and closes it at the end of the input. -/
theorem parseLoop_joinFields :
    ∀ fs : List (List Char), fs ≠ [] →
      (∀ f ∈ fs, ∀ c ∈ f, plainChar c = true) →
      (∀ f ∈ fs.tail, f.head? ≠ some ' ') →
      (∀ lf : List Char, fs.getLast? = some lf → jsTrim lf = lf ∧ lf ≠ []) →
      ∀ (cur : List (List Char)) (recs : List (List (List Char))),
        parseLoop (joinFields fs) cur recs = recs ++ [cur ++ fs] := by
  intro fs
  induction fs with
  | nil => intro h; exact absurd rfl h
  | cons f fs ih =>
    intro _ hplain hspace hlast cur recs
    cases fs with
    | nil =>
      obtain ⟨htrim, hne⟩ := hlast f rfl
      have hjoin : joinFields [f] = f := rfl
      rw [hjoin]
      have hmode : f.head? ≠ some '"' :=
        head?_not_quote_of_plain (hplain f (by simp))
      have hnone : findMarker f = none := by
        unfold findMarker
        rw [if_neg hmode]
        exact findFieldEnd_eq_none fun c hc => plainChar_not_delim (hplain f (by simp) c hc)
      rw [parseLoop_none hnone]
      simp only [finishUp, htrim]
      have hne' : ¬ f.isEmpty = true := by simpa [List.isEmpty_iff] using hne
      rw [if_neg hne', if_neg (by simp)]
    | cons f2 fs2 =>
      have hjoin : joinFields (f :: f2 :: fs2) = f ++ ',' :: joinFields (f2 :: fs2) := rfl
      rw [hjoin]
      have ht : (joinFields (f2 :: fs2)).head? ≠ some ' ' := by
        cases f2 with
        | nil =>
          cases fs2 with
          | nil =>
            obtain ⟨-, hne⟩ := hlast [] (by rfl)
            exact absurd rfl hne
          | cons f3 fs3 =>
            have : joinFields ([] :: f3 :: fs3) = ',' :: joinFields (f3 :: fs3) := rfl
            rw [this]
            simp
        | cons c2 r2 =>
          have hh : ((c2 :: r2) : List Char).head? ≠ some ' ' :=
            hspace (c2 :: r2) (by simp)
          cases fs2 with
          | nil => exact hh
          | cons f3 fs3 =>
            have : joinFields ((c2 :: r2) :: f3 :: fs3)
                = c2 :: (r2 ++ ',' :: joinFields (f3 :: fs3)) := rfl
            rw [this]
            simpa using hh
      rw [parseLoop_some (findMarker_plain_comma (hplain f (by simp)) ht)]
      rw [if_pos (by decide)]
      rw [finishField_plain (head?_not_quote_of_plain (hplain f (by simp)))]
      rw [ih (by simp)
        (fun g hg => hplain g (by simp [hg]))
        (fun g hg => hspace g (by simp; right; simpa using hg))
        (fun lf hlf => hlast lf (by rw [List.getLast?_cons_cons]; exact hlf))
        (cur ++ [f]) recs]
      simp

/-- Counterexample to claim C1 as stated: the record `[""]` appears in the
output of parseCSV (on input ","), its only field contains no comma,
quote, CR or LF, yet re-parsing the comma-join of its fields (the empty
string) yields `[]`, not `[[""]]`: the final field is dropped by the
trailing-text trim of lines 106-111. -/
theorem claim_C1_counterexample :
    [""] ∈ parseCSV ","
  ∧ (∀ f ∈ ([""] : List String), ∀ c ∈ f.data,
      ¬ (c = ',' ∨ c = '"' ∨ c = '\r' ∨ c = '\n'))
  ∧ parseCSV (joinComma [""]) = []
  ∧ ([] : List (List String)) ≠ [[""]] := by
  refine ⟨?_, by decide, ?_, by decide⟩
  · rw [parseCSV_eval (show parseCSVOpt "," = some [[""]] by decide)]
    simp
  · have hj : joinComma [""] = "" := by decide
    rw [hj]
    exact parseCSV_eval (by decide)

/-- Claim C1 as amended: for a record r of the parser's output whose
fields contain no comma, quote, CR or LF, re-parsing the comma-join of r
returns exactly [r] provided additionally that no field after the first
starts with a space character (such spaces would be consumed as part of
the preceding marker) and that the final field is non-empty and untouched
by whitespace-trimming (the trailing text of the join is trimmed by line
107). -/
theorem claim_C1_amended (s : String) (r : List String)
    (hmem : r ∈ parseCSV s)
    (hplain : ∀ f ∈ r, ∀ c ∈ f.data, plainChar c = true)
    (hspace : ∀ f ∈ r.tail, f.data.head? ≠ some ' ')
    (hlast : ∀ lf : String, r.getLast? = some lf → jsTrim lf.data = lf.data ∧ lf ≠ "") :
    parseCSV (joinComma r) = [r] := by
  have hne : r ≠ [] := mem_parseCSV_ne_nil hmem
  have hfs : (r.map String.data) ≠ [] := by
    simpa [List.map_eq_nil_iff] using hne
  have hplain' : ∀ f ∈ r.map String.data, ∀ c ∈ f, plainChar c = true := by
    intro f hf
    obtain ⟨g, hg, rfl⟩ := List.mem_map.mp hf
    exact hplain g hg
  have hspace' : ∀ f ∈ (r.map String.data).tail, f.head? ≠ some ' ' := by
    cases r with
    | nil => simp
    | cons a t =>
      intro f hf
      simp only [List.map_cons, List.tail_cons] at hf
      obtain ⟨g, hg, rfl⟩ := List.mem_map.mp hf
      exact hspace g (by simpa using hg)
  have hlast' : ∀ lf : List Char, (r.map String.data).getLast? = some lf →
      jsTrim lf = lf ∧ lf ≠ [] := by
    intro lf hlf
    rw [getLast?_map_eq String.data r] at hlf
    cases hg : r.getLast? with
    | none => rw [hg] at hlf; simp at hlf
    | some g =>
      rw [hg] at hlf
      simp only [Option.map_some', Option.some.injEq] at hlf
      subst hlf
      obtain ⟨h1, h2⟩ := hlast g hg
      refine ⟨h1, fun hnil => h2 ?_⟩
      apply String.ext
      rw [hnil]
  unfold parseCSV parseCSVl
  have hdata : (joinComma r).data = joinFields (r.map String.data) := rfl
  rw [hdata, parseLoop_joinFields (r.map String.data) hfs hplain' hspace' hlast' [] []]
  have hmapid : (r.map String.data).map String.mk = r := by
    rw [List.map_map]
    have hcomp : (String.mk ∘ String.data) = id := funext fun t => rfl
    rw [hcomp, List.map_id]
  simp [hmapid]

/-- Witness for the amended claim C1 at the record ["x","y"], taken from
the output of parseCSV "x,y". -/
theorem claim_C1_amended_witness : parseCSV (joinComma ["x", "y"]) = [["x", "y"]] :=
  claim_C1_amended "x,y" ["x", "y"]
    (by rw [parseCSV_eval (show parseCSVOpt "x,y" = some [["x", "y"]] by decide)]; simp)
    (by decide) (by decide)
    (by
      intro lf h
      have hg : (["x", "y"] : List String).getLast? = some "y" := by decide
      rw [hg] at h
      injection h with h'
      subst h'
      exact ⟨by decide, by decide⟩)

/-- Counterexample to claim C3 as stated: in "a,b " the trailing space is
not immediately after any delimiter, yet it appears in no output field,
because the trailing text "b " is whitespace-trimmed by line 107. -/
theorem claim_C3_counterexample :
    parseCSV "a,b " = [["a", "b"]] ∧ parseCSV "a,b " ≠ [["a", "b "]] := by
  have h := parseCSV_eval (show parseCSVOpt "a,b " = some [["a", "b"]] by decide)
  exact ⟨h, by rw [h]; decide⟩

/-- Claim C3 as amended: space characters following a field-ending comma
are consumed with the marker and reach no field, and spaces at other
positions of a field are preserved verbatim — except in the final
un-terminated segment of the input, which is whitespace-trimmed at both
ends before being emitted (or dropped entirely when only whitespace
remains). -/
theorem claim_C3_amended :
    (∀ (u v : List Char) (k : Nat),
        (∀ c ∈ u, plainChar c = true) → (∀ c ∈ v, plainChar c = true) →
        v ≠ [] → v.head? ≠ some ' ' → jsTrim v = v →
        parseCSVl (u ++ [','] ++ List.replicate k ' ' ++ v) = [[u, v]])
  ∧ (∀ w : List Char, (∀ c ∈ w, isDelim c = false) → w.head? ≠ some '"' →
        parseCSVl w = if jsTrim w = [] then [] else [[jsTrim w]]) := by
  constructor
  · intro u v k hu hv hvne hvsp hvtrim
    unfold parseCSVl
    have hshape : u ++ [','] ++ List.replicate k ' ' ++ v
        = u ++ ',' :: (List.replicate k ' ' ++ v) := by simp
    rw [hshape]
    have hmark : findMarker (u ++ ',' :: (List.replicate k ' ' ++ v))
        = some (u, ',', v) := by
      have hmode : (u ++ ',' :: (List.replicate k ' ' ++ v)).head? ≠ some '"' := by
        cases u with
        | nil => simp
        | cons c rest =>
          simp only [List.cons_append, List.head?_cons, ne_eq, Option.some.injEq]
          exact plainChar_not_quote (hu c (by simp))
      unfold findMarker
      rw [if_neg hmode,
        findFieldEnd_append (fun c hc => plainChar_not_delim (hu c hc)),
        findFieldEnd_cons_delim ',' (by decide), Option.map_some']
      rw [dropSpaces_replicate, dropSpaces_eq_self hvsp]
      simp
    rw [parseLoop_some hmark, if_pos (by decide)]
    rw [finishField_plain (head?_not_quote_of_plain hu)]
    have hnone : findMarker v = none := by
      unfold findMarker
      rw [if_neg (head?_not_quote_of_plain hv)]
      exact findFieldEnd_eq_none fun c hc => plainChar_not_delim (hv c hc)
    rw [parseLoop_none hnone]
    simp only [finishUp, hvtrim]
    have hvne' : ¬ v.isEmpty = true := by simpa [List.isEmpty_iff] using hvne
    rw [if_neg hvne', if_neg (by simp)]
    simp
  · intro w hw hmode
    unfold parseCSVl
    have hnone : findMarker w = none := by
      unfold findMarker
      rw [if_neg hmode]
      exact findFieldEnd_eq_none hw
    rw [parseLoop_none hnone]
    simp only [finishUp]
    by_cases h : jsTrim w = []
    · have h1 : (jsTrim w).isEmpty = true := by simp [List.isEmpty_iff, h]
      rw [if_pos h1]
      simp [h]
    · have h1 : ¬ (jsTrim w).isEmpty = true := by simpa [List.isEmpty_iff] using h
      rw [if_neg h1]
      simp [h]

/-- Witness for the amended claim C3: two marker spaces are discarded
while the spaces inside "a " and "b c" survive, and a lone trailing
segment "x " is trimmed. -/
theorem claim_C3_amended_witness :
    parseCSVl (['a', ' '] ++ [','] ++ List.replicate 2 ' ' ++ ['b', ' ', 'c'])
      = [[['a', ' '], ['b', ' ', 'c']]]
  ∧ parseCSVl ['x', ' '] = if jsTrim ['x', ' '] = [] then [] else [[jsTrim ['x', ' ']]] :=
  ⟨claim_C3_amended.1 ['a', ' '] ['b', ' ', 'c'] 2 (by decide) (by decide) (by decide)
      (by decide) (by decide),
   claim_C3_amended.2 ['x', ' '] (by decide) (by decide)⟩

/-- A delimiter-free, unquoted, trim-invariant, non-empty remainder is
emitted as the one final field of the current record. -/
theorem parseLoop_trailing (w : List Char) (hw : ∀ c ∈ w, isDelim c = false)
    (hq : w.head? ≠ some '"') (htrim : jsTrim w = w) (hne : w ≠ []) :
    ∀ (cur : List (List Char)) (recs : List (List (List Char))),
      parseLoop w cur recs = recs ++ [cur ++ [w]] := by
  intro cur recs
  have hnone : findMarker w = none := by
    unfold findMarker
    rw [if_neg hq]
    exact findFieldEnd_eq_none hw
  rw [parseLoop_none hnone]
  simp only [finishUp, htrim]
  have hne' : ¬ w.isEmpty = true := by simpa [List.isEmpty_iff] using hne
  rw [if_neg hne', if_neg (by simp)]

/-- The scan mode of a text starting with a quote is quoted. -/
theorem findMarker_quote (l : List Char) :
    findMarker ('"' :: l) = findQFieldEnd ('"' :: l) := by
  unfold findMarker
  rw [if_pos (show (('"' : Char) :: l).head? = some '"' from rfl)]

/-- Claim C2: doubled quotes inside a quoted field un-escape to a single
quote (the concrete example of the spec); in general a quoted field whose
interior carries a doubled quote emits the interior with the pair
collapsed, and an unquoted field is emitted verbatim, quote pairs
included.  The side conditions keep the interior free of further quote
runs and keep its first character off the delimiter class, since a quote
run abutting a delimiter is where the quoted marker matches. -/
theorem claim_C2 :
    parseCSV "a,\"say \"\"hi\"\"\",b" = [["a", "say \"hi\"", "b"]]
  ∧ (∀ (a b : Char) (u v : List Char),
      ¬ a = '"' → isDelim a = false → (∀ c ∈ u, ¬ c = '"') →
      ¬ b = '"' → isDelim b = false → (∀ c ∈ v, ¬ c = '"') →
      parseCSVl ('"' :: (a :: u) ++ ['"', '"'] ++ (b :: v) ++ ['"', ',', 'x'])
        = [[(a :: u) ++ '"' :: (b :: v), ['x']]])
  ∧ (∀ (a : Char) (w : List Char),
      ¬ a = '"' → isDelim a = false → (∀ c ∈ w, isDelim c = false) →
      parseCSVl ((a :: w) ++ [',', 'x']) = [[a :: w, ['x']]])
  ∧ (∀ f : List Char, f.head? = some '"' → finishField f = unescapePairs (stripOuter f))
  ∧ (∀ f : List Char, f.head? ≠ some '"' → finishField f = f) := by
  refine ⟨parseCSV_eval (by decide), ?_, ?_, fun f hf => by unfold finishField; rw [if_pos hf],
    fun f hf => by unfold finishField; rw [if_neg hf]⟩
  · intro a b u v haq had hu hbq hbd hv
    have hbv : ∀ c ∈ (b :: v), ¬ c = '"' := by
      intro c hc
      rcases List.mem_cons.mp hc with h | h
      · subst h; exact hbq
      · exact hv c h
    unfold parseCSVl
    simp only [List.cons_append, List.append_assoc, List.nil_append]
    have hmark : findMarker
        ('"' :: a :: (u ++ ('"' :: '"' :: (b :: (v ++ ('"' :: ',' :: ['x']))))))
        = some ('"' :: a :: (u ++ ('"' :: '"' :: (b :: (v ++ ['"'])))), ',', ['x']) := by
      rw [findMarker_quote]
      rw [findQFieldEnd_quote_nondelim a (by simp [had]),
        findQFieldEnd_cons_of_ne a haq,
        findQFieldEnd_append hu,
        findQFieldEnd_quote_nondelim '"' (by decide),
        findQFieldEnd_quote_nondelim b (by simp [hbd]),
        findQFieldEnd_cons_of_ne b hbq,
        findQFieldEnd_append hv,
        findQFieldEnd_quote_delim ',' (by decide)]
      simp [dropSpaces]
    rw [parseLoop_some hmark, if_pos (by decide)]
    have h0 := finishField_wrap (a :: (u ++ ('"' :: '"' :: (b :: v))))
    simp only [List.cons_append, List.append_assoc, List.nil_append] at h0
    rw [unescapePairs_cons_of_ne a haq, unescapePairs_append_of_no_quote hu,
      unescapePairs_pair, unescapePairs_eq_self hbv] at h0
    rw [h0]
    rw [parseLoop_trailing ['x'] (by decide) (by decide) (by decide) (by decide)]
    simp
  · intro a w haq had hw
    have haw : ∀ c ∈ (a :: w), isDelim c = false := by
      intro c hc
      rcases List.mem_cons.mp hc with h | h
      · subst h; exact had
      · exact hw c h
    unfold parseCSVl
    simp only [List.cons_append, List.append_assoc, List.nil_append]
    have hmark : findMarker (a :: (w ++ [',', 'x'])) = some (a :: w, ',', ['x']) := by
      unfold findMarker
      rw [if_neg (by simp [haq])]
      show findFieldEnd ((a :: w) ++ ',' :: ['x']) = some (a :: w, ',', ['x'])
      rw [findFieldEnd_append haw, findFieldEnd_cons_delim ',' (by decide)]
      simp [dropSpaces]
    rw [parseLoop_some hmark, if_pos (by decide)]
    rw [finishField_plain (by simp [haq])]
    rw [parseLoop_trailing ['x'] (by decide) (by decide) (by decide) (by decide)]
    simp

/-- Witness for claim C2: the general parts instantiated at concrete
fields: the quoted interior `say ""hi` (so u = "ay ", v = "hi") and the
unquoted field `z""w`, whose quote pair survives verbatim. -/
theorem claim_C2_witness :
    parseCSVl ('"' :: ('s' :: ['a', 'y', ' ']) ++ ['"', '"'] ++ ('h' :: ['i'])
        ++ ['"', ',', 'x'])
      = [[('s' :: ['a', 'y', ' ']) ++ '"' :: ('h' :: ['i']), ['x']]]
  ∧ parseCSVl (('z' :: ['"', '"', 'w']) ++ [',', 'x']) = [['z' :: ['"', '"', 'w'], ['x']]]
  ∧ finishField ['"', 'a', '"'] = unescapePairs (stripOuter ['"', 'a', '"'])
  ∧ finishField ['z', '"', '"'] = ['z', '"', '"'] :=
  ⟨claim_C2.2.1 's' 'h' ['a', 'y', ' '] ['i'] (by decide) (by decide) (by decide)
      (by decide) (by decide) (by decide),
   claim_C2.2.2.1 'z' ['"', '"', 'w'] (by decide) (by decide) (by decide),
   claim_C2.2.2.2.1 ['"', 'a', '"'] (by decide),
   claim_C2.2.2.2.2 ['z', '"', '"'] (by decide)⟩

/-- Counterexample to claim C7 as stated: in `a,",x",d` the comma at
index 3 lies between the opening quote (index 2, which put the scan in
quoted mode) and the closing quote (index 5) of the quoted field, yet the
parse splits there: the quoted marker regex matches at the opening quote
itself, because that quote run is immediately followed by a delimiter. -/
theorem claim_C7_counterexample :
    parseCSV "a,\",x\",d" = [["a", "\"", "x\"", "d"]]
  ∧ parseCSV "a,\",x\",d" ≠ [["a", ",x", "d"]] := by
  have h := parseCSV_eval
    (show parseCSVOpt "a,\",x\",d" = some [["a", "\"", "x\"", "d"]] by decide)
  exact ⟨h, by rw [h]; decide⟩

/-- Claim C7 as amended: a comma strictly inside a quoted field does not
end the field or split the record, provided the character right after the
opening quote is not itself a delimiter and the interior contains no
further quote characters (a quote run immediately followed by a delimiter
is exactly where the quoted marker matches); the spec's concrete example
holds as stated. -/
theorem claim_C7_amended :
    parseCSV "a,\"b,c\",d" = [["a", "b,c", "d"]]
  ∧ (∀ (a : Char) (u v : List Char),
      ¬ a = '"' → isDelim a = false → (∀ c ∈ u, ¬ c = '"') → (∀ c ∈ v, ¬ c = '"') →
      parseCSVl ('"' :: (a :: u) ++ ',' :: v ++ ['"', ',', 'x'])
        = [[(a :: u) ++ ',' :: v, ['x']]]) := by
  refine ⟨parseCSV_eval (by decide), ?_⟩
  intro a u v haq had hu hv
  unfold parseCSVl
  simp only [List.cons_append, List.append_assoc, List.nil_append]
  have hmark : findMarker ('"' :: a :: (u ++ (',' :: (v ++ ('"' :: ',' :: ['x'])))))
      = some ('"' :: a :: (u ++ (',' :: (v ++ ['"']))), ',', ['x']) := by
    rw [findMarker_quote]
    rw [findQFieldEnd_quote_nondelim a (by simp [had]),
      findQFieldEnd_cons_of_ne a haq,
      findQFieldEnd_append hu,
      findQFieldEnd_cons_of_ne ',' (by decide),
      findQFieldEnd_append hv,
      findQFieldEnd_quote_delim ',' (by decide)]
    simp [dropSpaces]
  rw [parseLoop_some hmark, if_pos (by decide)]
  have h0 := finishField_wrap (a :: (u ++ (',' :: v)))
  simp only [List.cons_append, List.append_assoc, List.nil_append] at h0
  rw [unescapePairs_cons_of_ne a haq, unescapePairs_append_of_no_quote hu,
    unescapePairs_cons_of_ne ',' (by decide), unescapePairs_eq_self hv] at h0
  rw [h0]
  rw [parseLoop_trailing ['x'] (by decide) (by decide) (by decide) (by decide)]
  simp

/-- Witness for the amended claim C7: the general part instantiated at
interior `b,c` (u = "", v = "c"). -/
theorem claim_C7_amended_witness :
    parseCSVl ('"' :: ('b' :: []) ++ ',' :: ['c'] ++ ['"', ',', 'x'])
      = [[('b' :: []) ++ ',' :: ['c'], ['x']]] :=
  claim_C7_amended.2 'b' [] ['c'] (by decide) (by decide) (by decide) (by decide)
